import Mathlib

/-!
Shallow embedding of `src/learn_perceptron.py` (perceptron learning for
2-dimensional data).

Modelling decisions, each noted at the definition it concerns:
* numpy row vectors / weight vectors are `List ℚ` (Python floats carry exact
  small rationals in every computation the claims touch);
* `np.dot` on shape-mismatched operands raises `ValueError`; we model the
  raise as `Except Unit`, with `.error ()` standing for the numpy exception;
* the interactive `input()` calls are modelled by a stream
  `keys : ℕ → List Char` giving the characters of the line typed at
  checkpoint `n` (the checkpoint at the end of iteration `n`); Python's
  `'q' in key` is the membership test `'q' ∈ keys n`;
* `np.random.randn(3,1)` (used only when `w_init` is empty) is modelled by an
  extra parameter `randW` supplying the drawn vector;
* calls to the external collaborator `plot_perceptron` are recorded in a
  trace (`plotTrace`) of the arguments passed, so that sequencing claims
  about the visualization calls are statable; the two constant example-set
  arguments are omitted from the record;
* the `while` loop has no termination guarantee in the source, so it is run
  with explicit fuel bounding the number of iterations; `.ok none` means the
  fuel ran out with the loop still running (an artifact of the embedding,
  never a behaviour of the program).
-/

namespace Perceptron

/-- Sum of pairwise products of two lists; the value of `np.dot` on two
equal-length vectors. -/
def dotList (x w : List ℚ) : ℚ :=
  (List.zipWith (fun a b => a * b) x w).sum

/-- `np.dot(this_case, w)` for a `1×n` row `this_case` and an `m×1` column
`w`: defined when the inner dimensions agree (`n = m`), otherwise numpy
raises `ValueError`, modelled as `.error ()`. -/
def npDot (x w : List ℚ) : Except Unit ℚ :=
  if x.length = w.length then .ok (dotList x w) else .error ()

/-- Elementwise subtraction `w - x` (numpy broadcasting of two equal-shape
`3×1` columns, the only shapes it is applied to). -/
def npSub (w x : List ℚ) : List ℚ :=
  List.zipWith (fun a b => a - b) w x

/-- Elementwise addition `w + x`. -/
def npAdd (w x : List ℚ) : List ℚ :=
  List.zipWith (fun a b => a + b) w x

/-- Squared Euclidean norm of a vector. `np.linalg.norm` is its square
root; the square root of a rational is irrational in general, and every
claim about the distance history concerns only when entries are appended,
never their numeric value, so the history records the squared norm. -/
def npNormSq (v : List ℚ) : ℚ :=
  (v.map (fun a => a * a)).sum

/-- `np.append(examples, np.ones((n, 1)), axis=1)`: append a constant `1.0`
column, turning each raw row into an augmented example. -/
def augment (rows : List (List ℚ)) : List (List ℚ) :=
  rows.map (fun r => r ++ [1])

/-- The negative-class loop of `eval_perceptron` (src lines 152-156):
for each row compute `activation = np.dot(x, w)` and record the index when
`activation >= 0`.  `i` is the index of the first row of `rows` in the full
example list. -/
def evalNeg (rows : List (List ℚ)) (w : List ℚ) (i : ℕ) : Except Unit (List ℕ) :=
  match rows with
  | [] => .ok []
  | x :: rest => do
      let a ← npDot x w
      let ms ← evalNeg rest w (i + 1)
      if 0 ≤ a then .ok (i :: ms) else .ok ms

/-- The positive-class loop of `eval_perceptron` (src lines 158-162):
record the index when `activation < 0`. -/
def evalPos (rows : List (List ℚ)) (w : List ℚ) (i : ℕ) : Except Unit (List ℕ) :=
  match rows with
  | [] => .ok []
  | x :: rest => do
      let a ← npDot x w
      let ms ← evalPos rest w (i + 1)
      if a < 0 then .ok (i :: ms) else .ok ms

/-- `eval_perceptron(neg_examples, pos_examples, w)` (src lines 131-164):
returns the index lists `(mistakes0, mistakes1)` of misclassified negative
and positive examples. -/
def eval_perceptron (neg pos : List (List ℚ)) (w : List ℚ) :
    Except Unit (List ℕ × List ℕ) := do
  let m0 ← evalNeg neg w 0
  let m1 ← evalPos pos w 0
  .ok (m0, m1)

/-- The negative-class sweep of `update_weights` (src lines 115-120).
The guard `activation >= 0` is from the source; the body of the guard is
left as `# YOUR CODE HERE` in the source.
Modelled from the spec: the corrective step for a misclassified negative
example, absent from `src/learn_perceptron.py`, is `w ← w - x` (spec §4.2
and §9, which fix this as the canonical rule). -/
def updateNeg (rows : List (List ℚ)) (w : List ℚ) : Except Unit (List ℚ) :=
  match rows with
  | [] => .ok w
  | x :: rest => do
      let a ← npDot x w
      updateNeg rest (if 0 ≤ a then npSub w x else w)

/-- The positive-class sweep of `update_weights` (src lines 122-127), guard
`activation < 0` from the source.
Modelled from the spec: the corrective step for a misclassified positive
example, absent from the source, is `w ← w + x` (spec §4.2 and §9). -/
def updatePos (rows : List (List ℚ)) (w : List ℚ) : Except Unit (List ℚ) :=
  match rows with
  | [] => .ok w
  | x :: rest => do
      let a ← npDot x w
      updatePos rest (if a < 0 then npAdd w x else w)

/-- `update_weights(neg_examples, pos_examples, w_current)` (src lines
95-129): one sweep over the negative examples then the positive examples,
each correction applied to the running weight vector immediately. -/
def update_weights (neg pos : List (List ℚ)) (w_current : List ℚ) :
    Except Unit (List ℚ) := do
  let w ← updateNeg neg w_current
  updatePos pos w

/-- One recorded call to the external collaborator `plot_perceptron`:
the mutable arguments it was passed (the constant example sets are not
recorded). -/
structure PlotCall where
  w : List ℚ
  mistakes0 : List ℕ
  mistakes1 : List ℕ
  numErrHistory : List ℕ
  wDistHistory : List ℚ
  deriving Repr, DecidableEq

/-- The mutable state of `learn_perceptron`'s run: the weight vector, the
two histories, the trace of `plot_perceptron` calls, the current error
count and the iteration counter (`iter` counts completed update epochs,
i.e. invocations of `update_weights`). -/
structure LoopState where
  w : List ℚ
  numErrHistory : List ℕ
  wDistHistory : List ℚ
  plotTrace : List PlotCall
  numErrs : ℕ
  iter : ℕ
  deriving Repr, DecidableEq

/-- The body of the `while num_errs > 0` loop (src lines 66-86) up to the
quit check: increment `iter`, one `update_weights` sweep, append the
(squared) distance to `w_gen_feas` if one was supplied, re-evaluate,
append the error count, call `plot_perceptron` (recorded in the trace). -/
def epochBody (neg pos : List (List ℚ)) (wGenFeas : List ℚ) (s : LoopState) :
    Except Unit LoopState := do
  let w ← update_weights neg pos s.w
  let wDist := if wGenFeas.isEmpty then s.wDistHistory
               else s.wDistHistory ++ [npNormSq (npSub w wGenFeas)]
  let (m0, m1) ← eval_perceptron neg pos w
  let numErrs := m0.length + m1.length
  let errHist := s.numErrHistory ++ [numErrs]
  let plots := s.plotTrace ++ [⟨w, m0, m1, errHist, wDist⟩]
  .ok ⟨w, errHist, wDist, plots, numErrs, s.iter + 1⟩

/-- The `while num_errs > 0` loop (src lines 66-89): while errors remain,
run one epoch body, then read a line at the checkpoint and `break` when it
contains `'q'`.  `fuel` bounds the number of iterations the embedding will
run; `.ok none` means the fuel was exhausted with the loop still running. -/
def loop (neg pos : List (List ℚ)) (wGenFeas : List ℚ) (keys : ℕ → List Char) :
    ℕ → LoopState → Except Unit (Option LoopState)
  | fuel, s =>
    if s.numErrs = 0 then .ok (some s)
    else
      match fuel with
      | 0 => .ok none
      | f + 1 => do
          let s' ← epochBody neg pos wGenFeas s
          if 'q' ∈ keys s'.iter then .ok (some s') else
            loop neg pos wGenFeas keys f s'

/-- `learn_perceptron(neg_examples_nobias, pos_examples_nobias, w_init,
w_gen_feas)` (src lines 11-91).  Augments the raw examples, initializes the
weight vector (`randW` models the `np.random.randn(3,1)` draw used when
`w_init` is empty), runs the epoch-0 evaluation, records the error count,
calls `plot_perceptron`, returns at once if the first checkpoint's input
contains `'q'`, otherwise appends the initial distance to `w_gen_feas`
(when supplied) and enters the update loop.  The source returns only `w`;
the returned `LoopState` exposes the run's bookkeeping alongside it. -/
def learn_perceptron (fuel : ℕ) (negRaw posRaw : List (List ℚ))
    (wInit wGenFeas randW : List ℚ) (keys : ℕ → List Char) :
    Except Unit (Option LoopState) :=
  let neg := augment negRaw
  let pos := augment posRaw
  let w := if wInit.isEmpty then randW else wInit
  do
    let (m0, m1) ← eval_perceptron neg pos w
    let numErrs := m0.length + m1.length
    let errHist := [numErrs]
    let plots := [⟨w, m0, m1, errHist, []⟩]
    if 'q' ∈ keys 0 then
      .ok (some ⟨w, errHist, [], plots, numErrs, 0⟩)
    else
      let wDist : List ℚ := if wGenFeas.isEmpty then []
                            else [npNormSq (npSub w wGenFeas)]
      loop neg pos wGenFeas keys fuel ⟨w, errHist, wDist, plots, numErrs, 0⟩

/-- Spec-side description of one corrective step of the negative pass:
subtract the example iff its activation against the running weight vector
is `≥ 0`. -/
def negStep (w x : List ℚ) : List ℚ :=
  if 0 ≤ dotList x w then npSub w x else w

/-- Spec-side description of one corrective step of the positive pass:
add the example iff its activation against the running weight vector
is `< 0`. -/
def posStep (w x : List ℚ) : List ℚ :=
  if dotList x w < 0 then npAdd w x else w

/-! ## Basic unfolding lemmas -/

theorem exceptBind_ok {α β : Type} (a : α) (f : α → Except Unit β) :
    (Except.ok a : Except Unit α) >>= f = f a := rfl

theorem exceptBind_error {α β : Type} (f : α → Except Unit β) :
    (Except.error () : Except Unit α) >>= f = Except.error () := rfl

theorem evalNeg_nil (w : List ℚ) (i : ℕ) : evalNeg [] w i = .ok [] := rfl

theorem evalNeg_cons (x : List ℚ) (rest : List (List ℚ)) (w : List ℚ) (i : ℕ) :
    evalNeg (x :: rest) w i =
      npDot x w >>= fun a => evalNeg rest w (i + 1) >>= fun ms =>
        if 0 ≤ a then .ok (i :: ms) else .ok ms := rfl

theorem evalPos_nil (w : List ℚ) (i : ℕ) : evalPos [] w i = .ok [] := rfl

theorem evalPos_cons (x : List ℚ) (rest : List (List ℚ)) (w : List ℚ) (i : ℕ) :
    evalPos (x :: rest) w i =
      npDot x w >>= fun a => evalPos rest w (i + 1) >>= fun ms =>
        if a < 0 then .ok (i :: ms) else .ok ms := rfl

theorem eval_perceptron_eq (neg pos : List (List ℚ)) (w : List ℚ) :
    eval_perceptron neg pos w =
      evalNeg neg w 0 >>= fun m0 => evalPos pos w 0 >>= fun m1 => .ok (m0, m1) := rfl

theorem updateNeg_nil (w : List ℚ) : updateNeg [] w = .ok w := rfl

theorem updatePos_nil (w : List ℚ) : updatePos [] w = .ok w := rfl

theorem update_weights_eq (neg pos : List (List ℚ)) (w : List ℚ) :
    update_weights neg pos w = updateNeg neg w >>= fun w1 => updatePos pos w1 := rfl

theorem loop_zero (neg pos : List (List ℚ)) (wGenFeas : List ℚ)
    (keys : ℕ → List Char) (s : LoopState) :
    loop neg pos wGenFeas keys 0 s =
      if s.numErrs = 0 then .ok (some s) else .ok none := rfl

theorem loop_succ (neg pos : List (List ℚ)) (wGenFeas : List ℚ)
    (keys : ℕ → List Char) (f : ℕ) (s : LoopState) :
    loop neg pos wGenFeas keys (f + 1) s =
      if s.numErrs = 0 then .ok (some s) else
        epochBody neg pos wGenFeas s >>= fun s' =>
          if 'q' ∈ keys s'.iter then .ok (some s') else
            loop neg pos wGenFeas keys f s' := by
  rw [loop]

theorem updateNeg_cons (x : List ℚ) (rest : List (List ℚ)) (w : List ℚ) :
    updateNeg (x :: rest) w =
      npDot x w >>= fun a => updateNeg rest (if 0 ≤ a then npSub w x else w) := rfl

theorem updatePos_cons (x : List ℚ) (rest : List (List ℚ)) (w : List ℚ) :
    updatePos (x :: rest) w =
      npDot x w >>= fun a => updatePos rest (if a < 0 then npAdd w x else w) := rfl

theorem npDot_ok {x w : List ℚ} {a : ℚ} (h : npDot x w = .ok a) :
    a = dotList x w := by
  unfold npDot at h
  split at h
  · exact (Except.ok.injEq _ _).mp h |>.symm
  · cases h

/-! ## Properties of the evaluation loops -/

/-- Everything the claims need about a successful run of the
negative-class evaluation loop: the returned index list is strictly
ascending, all its entries lie in `[i, i + rows.length)`, and membership
of `i + j` is exactly "row `j`'s activation is `≥ 0`". -/
theorem evalNeg_ok (w : List ℚ) :
    ∀ (rows : List (List ℚ)) (i : ℕ) (ms : List ℕ),
      evalNeg rows w i = .ok ms →
      List.Sorted (· < ·) ms ∧
      (∀ j ∈ ms, i ≤ j ∧ j < i + rows.length) ∧
      (∀ (j : ℕ) (x : List ℚ), rows.get? j = some x →
        ∃ a, npDot x w = .ok a ∧ ((i + j) ∈ ms ↔ 0 ≤ a)) := by
  intro rows
  induction rows with
  | nil =>
      intro i ms h
      rw [evalNeg_nil] at h
      cases h
      refine ⟨List.sorted_nil, by simp, ?_⟩
      intro j x hx
      simp at hx
  | cons x rest ih =>
      intro i ms h
      rw [evalNeg_cons] at h
      cases hd : npDot x w with
      | error e =>
          cases e
          rw [hd, exceptBind_error] at h
          cases h
      | ok a =>
          rw [hd, exceptBind_ok] at h
          cases he : evalNeg rest w (i + 1) with
          | error e =>
              cases e
              rw [he, exceptBind_error] at h
              cases h
          | ok ms' =>
              rw [he, exceptBind_ok] at h
              obtain ⟨hs, hb, hm⟩ := ih (i + 1) ms' he
              by_cases ha : 0 ≤ a
              · rw [if_pos ha] at h
                injection h with h
                subst h
                refine ⟨?_, ?_, ?_⟩
                · exact List.sorted_cons.mpr
                    ⟨fun b hbmem => Nat.lt_of_succ_le (hb b hbmem).1, hs⟩
                · intro j hj
                  rcases List.mem_cons.mp hj with hj | hj
                  · subst hj
                    rw [List.length_cons]
                    omega
                  · have := hb j hj
                    rw [List.length_cons]
                    omega
                · intro j y hy
                  cases j with
                  | zero =>
                      simp only [List.get?_cons_zero, Option.some.injEq] at hy
                      subst hy
                      refine ⟨a, hd, ?_⟩
                      constructor
                      · intro _; exact ha
                      · intro _
                        exact List.mem_cons.mpr (Or.inl (Nat.add_zero i))
                  | succ jj =>
                      simp only [List.get?_cons_succ] at hy
                      obtain ⟨a', ha', hiff⟩ := hm jj y hy
                      refine ⟨a', ha', ?_⟩
                      have hne : i + (jj + 1) ≠ i := by omega
                      have harith : i + (jj + 1) = (i + 1) + jj := by omega
                      rw [List.mem_cons]
                      rw [harith] at hne ⊢
                      simp only [hne, false_or]
                      exact hiff
              · rw [if_neg ha] at h
                injection h with h
                subst h
                refine ⟨hs, ?_, ?_⟩
                · intro j hj
                  have := hb j hj
                  rw [List.length_cons]
                  omega
                · intro j y hy
                  cases j with
                  | zero =>
                      simp only [List.get?_cons_zero, Option.some.injEq] at hy
                      subst hy
                      refine ⟨a, hd, ?_⟩
                      constructor
                      · intro hmem
                        exact absurd ((hb _ hmem).1) (by omega)
                      · intro h0
                        exact absurd h0 ha
                  | succ jj =>
                      simp only [List.get?_cons_succ] at hy
                      obtain ⟨a', ha', hiff⟩ := hm jj y hy
                      refine ⟨a', ha', ?_⟩
                      have harith : i + (jj + 1) = (i + 1) + jj := by omega
                      rw [harith]
                      exact hiff

/-- Mirror of `evalNeg_ok` for the positive-class loop, whose mistake
predicate is `activation < 0`. -/
theorem evalPos_ok (w : List ℚ) :
    ∀ (rows : List (List ℚ)) (i : ℕ) (ms : List ℕ),
      evalPos rows w i = .ok ms →
      List.Sorted (· < ·) ms ∧
      (∀ j ∈ ms, i ≤ j ∧ j < i + rows.length) ∧
      (∀ (j : ℕ) (x : List ℚ), rows.get? j = some x →
        ∃ a, npDot x w = .ok a ∧ ((i + j) ∈ ms ↔ a < 0)) := by
  intro rows
  induction rows with
  | nil =>
      intro i ms h
      rw [evalPos_nil] at h
      cases h
      refine ⟨List.sorted_nil, by simp, ?_⟩
      intro j x hx
      simp at hx
  | cons x rest ih =>
      intro i ms h
      rw [evalPos_cons] at h
      cases hd : npDot x w with
      | error e =>
          cases e
          rw [hd, exceptBind_error] at h
          cases h
      | ok a =>
          rw [hd, exceptBind_ok] at h
          cases he : evalPos rest w (i + 1) with
          | error e =>
              cases e
              rw [he, exceptBind_error] at h
              cases h
          | ok ms' =>
              rw [he, exceptBind_ok] at h
              obtain ⟨hs, hb, hm⟩ := ih (i + 1) ms' he
              by_cases ha : a < 0
              · rw [if_pos ha] at h
                injection h with h
                subst h
                refine ⟨?_, ?_, ?_⟩
                · exact List.sorted_cons.mpr
                    ⟨fun b hbmem => Nat.lt_of_succ_le (hb b hbmem).1, hs⟩
                · intro j hj
                  rcases List.mem_cons.mp hj with hj | hj
                  · subst hj
                    rw [List.length_cons]
                    omega
                  · have := hb j hj
                    rw [List.length_cons]
                    omega
                · intro j y hy
                  cases j with
                  | zero =>
                      simp only [List.get?_cons_zero, Option.some.injEq] at hy
                      subst hy
                      refine ⟨a, hd, ?_⟩
                      constructor
                      · intro _; exact ha
                      · intro _
                        exact List.mem_cons.mpr (Or.inl (Nat.add_zero i))
                  | succ jj =>
                      simp only [List.get?_cons_succ] at hy
                      obtain ⟨a', ha', hiff⟩ := hm jj y hy
                      refine ⟨a', ha', ?_⟩
                      have hne : i + (jj + 1) ≠ i := by omega
                      have harith : i + (jj + 1) = (i + 1) + jj := by omega
                      rw [List.mem_cons]
                      rw [harith] at hne ⊢
                      simp only [hne, false_or]
                      exact hiff
              · rw [if_neg ha] at h
                injection h with h
                subst h
                refine ⟨hs, ?_, ?_⟩
                · intro j hj
                  have := hb j hj
                  rw [List.length_cons]
                  omega
                · intro j y hy
                  cases j with
                  | zero =>
                      simp only [List.get?_cons_zero, Option.some.injEq] at hy
                      subst hy
                      refine ⟨a, hd, ?_⟩
                      constructor
                      · intro hmem
                        exact absurd ((hb _ hmem).1) (by omega)
                      · intro h0
                        exact absurd h0 ha
                  | succ jj =>
                      simp only [List.get?_cons_succ] at hy
                      obtain ⟨a', ha', hiff⟩ := hm jj y hy
                      refine ⟨a', ha', ?_⟩
                      have harith : i + (jj + 1) = (i + 1) + jj := by omega
                      rw [harith]
                      exact hiff

/-- Successful `eval_perceptron` decomposes into successful runs of the
two loops. -/
theorem eval_perceptron_ok {neg pos : List (List ℚ)} {w : List ℚ}
    {m0 m1 : List ℕ} (h : eval_perceptron neg pos w = .ok (m0, m1)) :
    evalNeg neg w 0 = .ok m0 ∧ evalPos pos w 0 = .ok m1 := by
  rw [eval_perceptron_eq] at h
  cases h0 : evalNeg neg w 0 with
  | error e =>
      cases e
      rw [h0, exceptBind_error] at h
      cases h
  | ok l0 =>
      rw [h0, exceptBind_ok] at h
      cases h1 : evalPos pos w 0 with
      | error e =>
          cases e
          rw [h1, exceptBind_error] at h
          cases h
      | ok l1 =>
          rw [h1, exceptBind_ok] at h
          injection h with h
          injection h with h h'
          subst h
          subst h'
          exact ⟨rfl, rfl⟩

/-! ## Properties of the update sweeps -/

/-- A successful negative pass is the fold of `negStep` over the rows:
each correction is applied to the running weight vector immediately. -/
theorem updateNeg_ok :
    ∀ (rows : List (List ℚ)) (w w' : List ℚ),
      updateNeg rows w = .ok w' → w' = List.foldl negStep w rows := by
  intro rows
  induction rows with
  | nil =>
      intro w w' h
      rw [updateNeg_nil] at h
      injection h with h
      rw [List.foldl_nil]
      exact h.symm
  | cons x rest ih =>
      intro w w' h
      rw [updateNeg_cons] at h
      cases hd : npDot x w with
      | error e =>
          cases e
          rw [hd, exceptBind_error] at h
          cases h
      | ok a =>
          rw [hd, exceptBind_ok] at h
          have ha := npDot_ok hd
          subst ha
          rw [List.foldl_cons]
          exact ih (negStep w x) w' h

/-- A successful positive pass is the fold of `posStep` over the rows. -/
theorem updatePos_ok :
    ∀ (rows : List (List ℚ)) (w w' : List ℚ),
      updatePos rows w = .ok w' → w' = List.foldl posStep w rows := by
  intro rows
  induction rows with
  | nil =>
      intro w w' h
      rw [updatePos_nil] at h
      injection h with h
      rw [List.foldl_nil]
      exact h.symm
  | cons x rest ih =>
      intro w w' h
      rw [updatePos_cons] at h
      cases hd : npDot x w with
      | error e =>
          cases e
          rw [hd, exceptBind_error] at h
          cases h
      | ok a =>
          rw [hd, exceptBind_ok] at h
          have ha := npDot_ok hd
          subst ha
          rw [List.foldl_cons]
          exact ih (posStep w x) w' h

/-! ## Properties of the training loop -/

theorem epochBody_eq (neg pos : List (List ℚ)) (wGenFeas : List ℚ) (s : LoopState) :
    epochBody neg pos wGenFeas s =
      update_weights neg pos s.w >>= fun w =>
        eval_perceptron neg pos w >>= fun mm =>
          .ok ⟨w, s.numErrHistory ++ [mm.1.length + mm.2.length],
               (if wGenFeas.isEmpty then s.wDistHistory
                else s.wDistHistory ++ [npNormSq (npSub w wGenFeas)]),
               s.plotTrace ++ [⟨w, mm.1, mm.2,
                 s.numErrHistory ++ [mm.1.length + mm.2.length],
                 (if wGenFeas.isEmpty then s.wDistHistory
                  else s.wDistHistory ++ [npNormSq (npSub w wGenFeas)])⟩],
               mm.1.length + mm.2.length, s.iter + 1⟩ := rfl

theorem learn_perceptron_eq (fuel : ℕ) (negRaw posRaw : List (List ℚ))
    (wInit wGenFeas randW : List ℚ) (keys : ℕ → List Char) :
    learn_perceptron fuel negRaw posRaw wInit wGenFeas randW keys =
      eval_perceptron (augment negRaw) (augment posRaw)
          (if wInit.isEmpty then randW else wInit) >>= fun mm =>
        if 'q' ∈ keys 0 then
          .ok (some ⟨(if wInit.isEmpty then randW else wInit),
            [mm.1.length + mm.2.length], [],
            [⟨(if wInit.isEmpty then randW else wInit), mm.1, mm.2,
              [mm.1.length + mm.2.length], []⟩],
            mm.1.length + mm.2.length, 0⟩)
        else
          loop (augment negRaw) (augment posRaw) wGenFeas keys fuel
            ⟨(if wInit.isEmpty then randW else wInit), [mm.1.length + mm.2.length],
             (if wGenFeas.isEmpty then []
              else [npNormSq (npSub (if wInit.isEmpty then randW else wInit) wGenFeas)]),
             [⟨(if wInit.isEmpty then randW else wInit), mm.1, mm.2,
               [mm.1.length + mm.2.length], []⟩],
             mm.1.length + mm.2.length, 0⟩ := rfl

/-- What one successful epoch body does to the bookkeeping: one error
count appended, `iter` incremented, the distance history and the plot
trace only ever extended. -/
theorem epochBody_ok {neg pos : List (List ℚ)} {wGenFeas : List ℚ}
    {s s' : LoopState} (h : epochBody neg pos wGenFeas s = .ok s') :
    s'.numErrHistory.length = s.numErrHistory.length + 1 ∧
    s'.iter = s.iter + 1 ∧
    (∃ d, s'.wDistHistory = s.wDistHistory ++ d) ∧
    (∃ t, s'.plotTrace = s.plotTrace ++ t) := by
  rw [epochBody_eq] at h
  cases hu : update_weights neg pos s.w with
  | error e =>
      cases e
      rw [hu, exceptBind_error] at h
      cases h
  | ok w1 =>
      rw [hu, exceptBind_ok] at h
      cases hev : eval_perceptron neg pos w1 with
      | error e =>
          cases e
          rw [hev, exceptBind_error] at h
          cases h
      | ok mm =>
          rw [hev, exceptBind_ok] at h
          injection h with h
          subst h
          refine ⟨by simp, by simp, ?_, ?_⟩
          · by_cases hgf : wGenFeas.isEmpty
            · exact ⟨[], by simp [hgf]⟩
            · exact ⟨[npNormSq (npSub w1 wGenFeas)], by simp [hgf]⟩
          · exact ⟨[⟨w1, mm.1, mm.2, s.numErrHistory ++ [mm.1.length + mm.2.length],
              (if wGenFeas.isEmpty then s.wDistHistory
               else s.wDistHistory ++ [npNormSq (npSub w1 wGenFeas)])⟩], by simp⟩

/-- What a run of the `while` loop that returns a final state
guarantees: it halted with zero errors or on a quit signal at its last
checkpoint, it preserves the `history length = iter + 1` invariant, and
it only ever extends the distance history and the plot trace. -/
theorem loop_ok {neg pos : List (List ℚ)} {wGenFeas : List ℚ}
    {keys : ℕ → List Char} :
    ∀ (fuel : ℕ) (s r : LoopState),
      loop neg pos wGenFeas keys fuel s = .ok (some r) →
      (r.numErrs = 0 ∨ 'q' ∈ keys r.iter) ∧
      (s.numErrHistory.length = s.iter + 1 →
        r.numErrHistory.length = r.iter + 1) ∧
      (∃ d, r.wDistHistory = s.wDistHistory ++ d) ∧
      (∃ t, r.plotTrace = s.plotTrace ++ t) := by
  intro fuel
  induction fuel with
  | zero =>
      intro s r h
      rw [loop_zero] at h
      split_ifs at h with hc
      · injection h with h
        injection h with h
        subst h
        exact ⟨Or.inl hc, fun hi => hi, ⟨[], by simp⟩, ⟨[], by simp⟩⟩
      · injection h with h
        cases h
  | succ f ih =>
      intro s r h
      rw [loop_succ] at h
      split_ifs at h with hc
      · injection h with h
        injection h with h
        subst h
        exact ⟨Or.inl hc, fun hi => hi, ⟨[], by simp⟩, ⟨[], by simp⟩⟩
      · cases hb : epochBody neg pos wGenFeas s with
        | error e =>
            cases e
            rw [hb, exceptBind_error] at h
            cases h
        | ok s1 =>
            rw [hb, exceptBind_ok] at h
            obtain ⟨hlen1, hiter1, ⟨d1, hd1⟩, ⟨t1, ht1⟩⟩ := epochBody_ok hb
            by_cases hq : 'q' ∈ keys s1.iter
            · rw [if_pos hq] at h
              injection h with h
              injection h with h
              subst h
              refine ⟨Or.inr hq, ?_, ⟨d1, hd1⟩, ⟨t1, ht1⟩⟩
              intro hi
              omega
            · rw [if_neg hq] at h
              obtain ⟨hhalt, hinv, ⟨d2, hd2⟩, ⟨t2, ht2⟩⟩ := ih s1 r h
              refine ⟨hhalt, ?_, ⟨d1 ++ d2, by rw [hd2, hd1, List.append_assoc]⟩,
                ⟨t1 ++ t2, by rw [ht2, ht1, List.append_assoc]⟩⟩
              intro hi
              apply hinv
              omega

/-! ## Claim theorems -/

/-- C1: `update_weights` performs exactly one sweep: it folds the
negative-pass correction (`subtract the example when its activation
against the current running weight vector is ≥ 0`) over the negative
examples in index order, then folds the positive-pass correction (`add
the example when its activation is < 0`) over the positive examples in
index order; each correction takes effect immediately (the fold threads
the running weight vector), and the returned vector is the result of
both passes, negatives first then positives. -/
theorem update_weights_one_sweep
    (neg pos : List (List ℚ)) (w w' : List ℚ)
    (h : update_weights neg pos w = .ok w') :
    w' = List.foldl posStep (List.foldl negStep w neg) pos := by
  rw [update_weights_eq] at h
  cases h1 : updateNeg neg w with
  | error e =>
      cases e
      rw [h1, exceptBind_error] at h
      cases h
  | ok w1 =>
      rw [h1, exceptBind_ok] at h
      rw [← updateNeg_ok neg w w1 h1]
      exact updatePos_ok pos w1 w' h

/-- Witness for C1 at negatives `{(-1,-1)}`, positives `{(1,1)}`
(augmented), `w = (0,0,0)`: the sweep subtracts the misclassified
negative example and leaves the then-correct positive one alone. -/
theorem update_weights_one_sweep_witness :
    ([1, 1, -1] : List ℚ) =
      List.foldl posStep (List.foldl negStep [0, 0, 0] [[-1, -1, 1]]) [[1, 1, 1]] := by
  refine update_weights_one_sweep [[-1, -1, 1]] [[1, 1, 1]] [0, 0, 0] [1, 1, -1] ?_
  norm_num [update_weights_eq, updateNeg_cons, updateNeg_nil, updatePos_cons, updatePos_nil,
    npDot, dotList, npSub, npAdd, Bind.bind, Except.bind]

/-- C2: for a negative example at index `i` with activation `a`,
`eval_perceptron` records `i` as a mistake exactly when `a ≥ 0`; for a
positive example exactly when `a < 0`.  In particular an activation of
exactly `0` is recorded as a mistake for a negative example and not for
a positive one (the asymmetric tie-break). -/
theorem eval_perceptron_mistake_characterization
    (neg pos : List (List ℚ)) (w : List ℚ) (m0 m1 : List ℕ)
    (h : eval_perceptron neg pos w = .ok (m0, m1)) :
    (∀ (i : ℕ) (x : List ℚ) (a : ℚ), neg.get? i = some x → npDot x w = .ok a →
      (i ∈ m0 ↔ 0 ≤ a)) ∧
    (∀ (i : ℕ) (x : List ℚ) (a : ℚ), pos.get? i = some x → npDot x w = .ok a →
      (i ∈ m1 ↔ a < 0)) ∧
    (∀ (i : ℕ) (x : List ℚ), neg.get? i = some x → npDot x w = .ok 0 → i ∈ m0) ∧
    (∀ (i : ℕ) (x : List ℚ), pos.get? i = some x → npDot x w = .ok 0 → i ∉ m1) := by
  obtain ⟨h0, h1⟩ := eval_perceptron_ok h
  obtain ⟨-, -, hmN⟩ := evalNeg_ok w neg 0 m0 h0
  obtain ⟨-, -, hmP⟩ := evalPos_ok w pos 0 m1 h1
  have hN : ∀ (i : ℕ) (x : List ℚ) (a : ℚ), neg.get? i = some x →
      npDot x w = .ok a → (i ∈ m0 ↔ 0 ≤ a) := by
    intro i x a hx ha
    obtain ⟨a', ha', hiff⟩ := hmN i x hx
    rw [ha] at ha'
    injection ha' with ha'
    subst ha'
    rwa [Nat.zero_add] at hiff
  have hP : ∀ (i : ℕ) (x : List ℚ) (a : ℚ), pos.get? i = some x →
      npDot x w = .ok a → (i ∈ m1 ↔ a < 0) := by
    intro i x a hx ha
    obtain ⟨a', ha', hiff⟩ := hmP i x hx
    rw [ha] at ha'
    injection ha' with ha'
    subst ha'
    rwa [Nat.zero_add] at hiff
  refine ⟨hN, hP, ?_, ?_⟩
  · intro i x hx ha
    exact (hN i x 0 hx ha).mpr le_rfl
  · intro i x hx ha hmem
    exact absurd ((hP i x 0 hx ha).mp hmem) (lt_irrefl 0)

/-- Witness for C2 at `neg = pos = {(1,1,1)}`, `w = (1,-1,0)`: both
examples have activation exactly `0`; index `0` is reported as a mistake
for the negative set and not for the positive set. -/
theorem eval_perceptron_mistake_characterization_witness :
    (0 : ℕ) ∈ ([0] : List ℕ) ∧ (0 : ℕ) ∉ ([] : List ℕ) := by
  have h := eval_perceptron_mistake_characterization
    [[1, 1, 1]] [[1, 1, 1]] [1, -1, 0] [0] []
    (by norm_num [eval_perceptron_eq, evalNeg_cons, evalNeg_nil, evalPos_cons, evalPos_nil,
      npDot, dotList, Bind.bind, Except.bind])
  exact ⟨h.2.2.1 0 [1, 1, 1] rfl (by norm_num [npDot, dotList]),
    h.2.2.2 0 [1, 1, 1] rfl (by norm_num [npDot, dotList])⟩

/-- C3: both index lists returned by `eval_perceptron` are strictly
ascending, and every index lies below the corresponding example count. -/
theorem eval_perceptron_sorted_in_range
    (neg pos : List (List ℚ)) (w : List ℚ) (m0 m1 : List ℕ)
    (h : eval_perceptron neg pos w = .ok (m0, m1)) :
    List.Sorted (· < ·) m0 ∧ List.Sorted (· < ·) m1 ∧
    (∀ j ∈ m0, j < neg.length) ∧ (∀ j ∈ m1, j < pos.length) := by
  obtain ⟨h0, h1⟩ := eval_perceptron_ok h
  obtain ⟨hs0, hb0, -⟩ := evalNeg_ok w neg 0 m0 h0
  obtain ⟨hs1, hb1, -⟩ := evalPos_ok w pos 0 m1 h1
  refine ⟨hs0, hs1, ?_, ?_⟩
  · intro j hj
    have := (hb0 j hj).2
    omega
  · intro j hj
    have := (hb1 j hj).2
    omega

/-- Witness for C3 at a two-element negative set whose rows both have
activation `0` against `w = (1,-1,0)`: the returned lists are `[0, 1]`
and `[]`, ascending and in range. -/
theorem eval_perceptron_sorted_in_range_witness :
    List.Sorted (· < ·) ([0, 1] : List ℕ) ∧ (1 : ℕ) < 2 := by
  have h := eval_perceptron_sorted_in_range
    [[1, 1, 1], [2, 2, 1]] [[0, 0, 1]] [1, -1, 0] [0, 1] []
    (by norm_num [eval_perceptron_eq, evalNeg_cons, evalNeg_nil, evalPos_cons, evalPos_nil,
      npDot, dotList, Bind.bind, Except.bind])
  exact ⟨h.1, h.2.2.1 1 (by simp)⟩

/-- C4: on the linearly separable dataset `negatives = {(-1,-1)}`,
`positives = {(1,1)}` (augmented), `w_init = (0,0,0)`, training reaches
zero errors within 20 epochs: there is a run (never receiving a quit
signal) that returns a state whose `iter` — the number of
`update_weights` applications performed — is at most 20 and whose error
count, as reported by the `eval_perceptron` call that follows the last
update, is zero. -/
theorem learn_perceptron_converges_small_dataset :
    ∃ (fuel : ℕ) (r : LoopState),
      learn_perceptron fuel [[-1, -1]] [[1, 1]] [0, 0, 0] [] [0, 0, 0]
          (fun _ => []) = .ok (some r) ∧
      r.iter ≤ 20 ∧ r.numErrs = 0 := by
  refine ⟨2, ⟨[1, 1, -1], [1, 0], [],
    [⟨[0, 0, 0], [0], [], [1], []⟩, ⟨[1, 1, -1], [], [], [1, 0], []⟩], 0, 1⟩,
    ?_, by norm_num, rfl⟩
  norm_num [learn_perceptron, loop, epochBody, update_weights, updateNeg, updatePos,
    eval_perceptron, evalNeg, evalPos, npDot, dotList, npSub, npAdd, npNormSq, augment,
    Bind.bind, Except.bind]

/-- C5: any returned run state satisfies
`numErrHistory.length = iter + 1`: the epoch-0 evaluation appends one
entry, and each of the `iter` completed update epochs appends exactly
one more. -/
theorem learn_perceptron_history_length
    (fuel : ℕ) (negRaw posRaw : List (List ℚ)) (wInit wGenFeas randW : List ℚ)
    (keys : ℕ → List Char) (r : LoopState)
    (h : learn_perceptron fuel negRaw posRaw wInit wGenFeas randW keys =
      .ok (some r)) :
    r.numErrHistory.length = r.iter + 1 := by
  rw [learn_perceptron_eq] at h
  cases hev : eval_perceptron (augment negRaw) (augment posRaw)
      (if wInit.isEmpty then randW else wInit) with
  | error e =>
      cases e
      rw [hev, exceptBind_error] at h
      cases h
  | ok mm =>
      rw [hev, exceptBind_ok] at h
      by_cases hq : 'q' ∈ keys 0
      · rw [if_pos hq] at h
        injection h with h
        injection h with h
        subst h
        simp
      · rw [if_neg hq] at h
        have := (loop_ok fuel _ r h).2.1
        simpa using this (by simp)

/-- Witness for C5: the converging two-epoch run has error history
`[1, 0]` of length `1 + 1` after `iter = 1` completed epochs. -/
theorem learn_perceptron_history_length_witness :
    ([1, 0] : List ℕ).length = 1 + 1 := by
  refine learn_perceptron_history_length 2 [[-1, -1]] [[1, 1]] [0, 0, 0] [] [0, 0, 0]
    (fun _ => [])
    ⟨[1, 1, -1], [1, 0], [],
      [⟨[0, 0, 0], [0], [], [1], []⟩, ⟨[1, 1, -1], [], [], [1, 0], []⟩], 0, 1⟩ ?_
  norm_num [learn_perceptron, loop, epochBody, update_weights, updateNeg, updatePos,
    eval_perceptron, evalNeg, evalPos, npDot, dotList, npSub, npAdd, npNormSq, augment,
    Bind.bind, Except.bind]

/-- C6: with a non-empty initial weight vector, if the first
checkpoint's input contains `'q'`, the run returns the initial weight
vector unchanged, the error history has exactly one entry, and
`iter = 0`: `update_weights` was never invoked. -/
theorem learn_perceptron_quit_first_checkpoint
    (fuel : ℕ) (negRaw posRaw : List (List ℚ)) (wInit wGenFeas randW : List ℚ)
    (keys : ℕ → List Char) (r : LoopState)
    (hw : wInit ≠ []) (hq : 'q' ∈ keys 0)
    (h : learn_perceptron fuel negRaw posRaw wInit wGenFeas randW keys =
      .ok (some r)) :
    r.w = wInit ∧ r.numErrHistory.length = 1 ∧ r.iter = 0 := by
  have hw' : wInit.isEmpty = false := by
    cases wInit with
    | nil => exact absurd rfl hw
    | cons a l => rfl
  rw [learn_perceptron_eq] at h
  cases hev : eval_perceptron (augment negRaw) (augment posRaw)
      (if wInit.isEmpty then randW else wInit) with
  | error e =>
      cases e
      rw [hev, exceptBind_error] at h
      cases h
  | ok mm =>
      rw [hev, exceptBind_ok, if_pos hq] at h
      injection h with h
      injection h with h
      subst h
      simp [hw']

/-- Witness for C6: a quit signal at the first checkpoint returns
`w_init = (0,0,0)` with a one-entry error history and no update. -/
theorem learn_perceptron_quit_first_checkpoint_witness :
    ([0, 0, 0] : List ℚ) = [0, 0, 0] ∧ ([1] : List ℕ).length = 1 ∧ (0 : ℕ) = 0 := by
  refine learn_perceptron_quit_first_checkpoint 2 [[-1, -1]] [[1, 1]] [0, 0, 0]
    [1, 1, -1] [0, 0, 0] (fun _ => ['q'])
    ⟨[0, 0, 0], [1], [], [⟨[0, 0, 0], [0], [], [1], []⟩], 1, 0⟩
    (by simp) (by simp) ?_
  norm_num [learn_perceptron, loop, epochBody, update_weights, updateNeg, updatePos,
    eval_perceptron, evalNeg, evalPos, npDot, dotList, npSub, npAdd, npNormSq, augment,
    Bind.bind, Except.bind]

/-- C7: a returned run state halted with zero errors or with a quit
signal at its final checkpoint (the returned weight vector `r.w` is the
one current at that moment), and whenever the error count is non-zero
the loop executes another epoch body before the next checkpoint. -/
theorem learn_perceptron_halting
    (fuel : ℕ) (negRaw posRaw : List (List ℚ)) (wInit wGenFeas randW : List ℚ)
    (keys : ℕ → List Char) (r : LoopState)
    (h : learn_perceptron fuel negRaw posRaw wInit wGenFeas randW keys =
      .ok (some r)) :
    (r.numErrs = 0 ∨ 'q' ∈ keys r.iter) ∧
    (∀ (f : ℕ) (s : LoopState), s.numErrs ≠ 0 →
      loop (augment negRaw) (augment posRaw) wGenFeas keys (f + 1) s =
        epochBody (augment negRaw) (augment posRaw) wGenFeas s >>= fun s' =>
          if 'q' ∈ keys s'.iter then .ok (some s') else
            loop (augment negRaw) (augment posRaw) wGenFeas keys f s') := by
  constructor
  · rw [learn_perceptron_eq] at h
    cases hev : eval_perceptron (augment negRaw) (augment posRaw)
        (if wInit.isEmpty then randW else wInit) with
    | error e =>
        cases e
        rw [hev, exceptBind_error] at h
        cases h
    | ok mm =>
        rw [hev, exceptBind_ok] at h
        by_cases hq : 'q' ∈ keys 0
        · rw [if_pos hq] at h
          injection h with h
          injection h with h
          subst h
          exact Or.inr hq
        · rw [if_neg hq] at h
          exact (loop_ok fuel _ r h).1
  · intro f s hs
    rw [loop_succ, if_neg hs]

/-- Witness for C7: the converging run halts with zero errors. -/
theorem learn_perceptron_halting_witness :
    (0 : ℕ) = 0 ∨ 'q' ∈ ([] : List Char) := by
  have h := learn_perceptron_halting 2 [[-1, -1]] [[1, 1]] [0, 0, 0] [] [0, 0, 0]
    (fun _ => [])
    ⟨[1, 1, -1], [1, 0], [],
      [⟨[0, 0, 0], [0], [], [1], []⟩, ⟨[1, 1, -1], [], [], [1, 0], []⟩], 0, 1⟩
    (by norm_num [learn_perceptron, loop, epochBody, update_weights, updateNeg, updatePos,
      eval_perceptron, evalNeg, evalPos, npDot, dotList, npSub, npAdd, npNormSq, augment,
      Bind.bind, Except.bind])
  exact h.1

/-- C8 counterexample: with a negative example of 3 raw columns (and
3-component `w_init`), no shape error is raised before training; the
epoch-0 evaluation is executed and it is numpy's `dot`, applied to the
first mismatched row inside `eval_perceptron` — i.e. during a training
step — that raises (`.error ()` models the `ValueError`).  The program
defines no `ShapeMismatchError` and performs no validation at all. -/
theorem learn_perceptron_no_fail_fast_cex :
    npDot [1, 2, 3, 1] [0, 0, 0] = .error () ∧
    eval_perceptron (augment [[1, 2, 3]]) (augment [[1, 2]]) [0, 0, 0] = .error () ∧
    learn_perceptron 5 [[1, 2, 3]] [[1, 2]] [0, 0, 0] [] [0, 0, 0]
      (fun _ => []) = .error () := by
  refine ⟨by norm_num [npDot], ?_, ?_⟩ <;>
    norm_num [learn_perceptron, loop, epochBody, update_weights, updateNeg, updatePos,
      eval_perceptron, evalNeg, evalPos, npDot, dotList, npSub, npAdd, npNormSq, augment,
      Bind.bind, Except.bind]

/-- C8 amended: `learn_perceptron` performs no shape validation and
raises no `ShapeMismatchError`: when the first negative row does not
have exactly 2 raw columns while `w_init` has 3 components, the run
reaches the epoch-0 evaluation and fails there, inside numpy's `dot`
(modelled `.error ()`), rather than failing fast before training. -/
theorem learn_perceptron_no_shape_validation
    (fuel : ℕ) (r0 : List ℚ) (negRest posRaw : List (List ℚ))
    (wInit wGenFeas randW : List ℚ) (keys : ℕ → List Char)
    (hr : r0.length ≠ 2) (hw : wInit.length = 3) :
    learn_perceptron fuel (r0 :: negRest) posRaw wInit wGenFeas randW keys =
      .error () := by
  have hw' : wInit.isEmpty = false := by
    cases wInit with
    | nil => simp at hw
    | cons a l => rfl
  rw [learn_perceptron_eq]
  have hif : (if wInit.isEmpty then randW else wInit) = wInit := by
    rw [hw']
    simp
  rw [hif]
  have hd : npDot (r0 ++ [1]) wInit = .error () := by
    unfold npDot
    rw [if_neg]
    rw [List.length_append, hw]
    simp
    omega
  have hev : eval_perceptron (augment (r0 :: negRest)) (augment posRaw) wInit =
      .error () := by
    rw [eval_perceptron_eq]
    have hneg : evalNeg (augment (r0 :: negRest)) wInit 0 = .error () := by
      show evalNeg ((r0 ++ [1]) :: augment negRest) wInit 0 = .error ()
      rw [evalNeg_cons, hd, exceptBind_error]
    rw [hneg, exceptBind_error]
  rw [hev, exceptBind_error]

/-- Witness for the amended C8 at the concrete malformed input. -/
theorem learn_perceptron_no_shape_validation_witness :
    learn_perceptron 7 [[1, 2, 3]] [[1, 2]] [0, 0, 0] [] [0, 0, 0]
      (fun _ => []) = .error () :=
  learn_perceptron_no_shape_validation 7 [1, 2, 3] [] [[1, 2]] [0, 0, 0] [] [0, 0, 0]
    (fun _ => []) (by norm_num) (by norm_num)

/-- C9 counterexample: in the run on `negatives = {(-1,-1)}`,
`positives = {(1,1)}`, `w_init = (0,0,0)` with feasible vector
`(1,1,-1)` and no quit signal, the epoch-0 call to `plot_perceptron`
receives an *empty* distance history — it does not contain the initial
distance (squared norm `3`), which is appended only after the epoch-0
checkpoint. -/
theorem epoch0_plot_empty_distance_cex :
    ∃ (r : LoopState) (p : PlotCall) (rest : List PlotCall),
      learn_perceptron 2 [[-1, -1]] [[1, 1]] [0, 0, 0] [1, 1, -1] [0, 0, 0]
        (fun _ => []) = .ok (some r) ∧
      r.plotTrace = p :: rest ∧ p.wDistHistory = [] ∧
      npNormSq (npSub [0, 0, 0] [1, 1, -1]) ∉ p.wDistHistory := by
  refine ⟨⟨[1, 1, -1], [1, 0], [3, 0],
      [⟨[0, 0, 0], [0], [], [1], []⟩, ⟨[1, 1, -1], [], [], [1, 0], [3, 0]⟩], 0, 1⟩,
    ⟨[0, 0, 0], [0], [], [1], []⟩, [⟨[1, 1, -1], [], [], [1, 0], [3, 0]⟩],
    ?_, rfl, rfl, by simp⟩
  norm_num [learn_perceptron, loop, epochBody, update_weights, updateNeg, updatePos,
    eval_perceptron, evalNeg, evalPos, npDot, dotList, npSub, npAdd, npNormSq, augment,
    Bind.bind, Except.bind]

/-- C9 amended: when a feasible vector is supplied (and the run
continues past the first checkpoint), the initial distance is computed
and appended *after* the epoch-0 evaluation, visualization and
continue decision — so the epoch-0 visualization receives an empty
distance history, and the initial distance is the first entry of the
distance history from the next step on (first visible to the epoch-1
visualization). -/
theorem initial_distance_recorded_after_epoch0_plot
    (fuel : ℕ) (negRaw posRaw : List (List ℚ)) (wInit wGenFeas randW : List ℚ)
    (keys : ℕ → List Char) (r : LoopState)
    (hw : wInit ≠ []) (hgf : wGenFeas ≠ []) (hq : 'q' ∉ keys 0)
    (h : learn_perceptron fuel negRaw posRaw wInit wGenFeas randW keys =
      .ok (some r)) :
    (∃ (p : PlotCall) (rest : List PlotCall),
      r.plotTrace = p :: rest ∧ p.wDistHistory = []) ∧
    r.wDistHistory.head? = some (npNormSq (npSub wInit wGenFeas)) := by
  have hw' : wInit.isEmpty = false := by
    cases wInit with
    | nil => exact absurd rfl hw
    | cons a l => rfl
  have hgf' : wGenFeas.isEmpty = false := by
    cases wGenFeas with
    | nil => exact absurd rfl hgf
    | cons a l => rfl
  rw [learn_perceptron_eq] at h
  cases hev : eval_perceptron (augment negRaw) (augment posRaw)
      (if wInit.isEmpty then randW else wInit) with
  | error e =>
      cases e
      rw [hev, exceptBind_error] at h
      cases h
  | ok mm =>
      rw [hev, exceptBind_ok, if_neg hq] at h
      rw [hw', hgf'] at h
      simp only [Bool.false_eq_true, if_false] at h
      obtain ⟨-, -, ⟨d, hd⟩, ⟨t, ht⟩⟩ := loop_ok fuel _ r h
      constructor
      · exact ⟨⟨wInit, mm.1, mm.2, [mm.1.length + mm.2.length], []⟩, t, by simpa using ht, rfl⟩
      · rw [hd]
        rfl

/-- Witness for the amended C9: the concrete feasible run's first plot
call saw `[]`, and the final distance history `[3, 0]` starts with the
initial squared distance `3`. -/
theorem initial_distance_recorded_after_epoch0_plot_witness :
    (∃ (p : PlotCall) (rest : List PlotCall),
      [(⟨[0, 0, 0], [0], [], [1], []⟩ : PlotCall),
        ⟨[1, 1, -1], [], [], [1, 0], [3, 0]⟩] = p :: rest ∧ p.wDistHistory = []) ∧
    ([3, 0] : List ℚ).head? = some (npNormSq (npSub [0, 0, 0] [1, 1, -1])) := by
  refine initial_distance_recorded_after_epoch0_plot 2 [[-1, -1]] [[1, 1]] [0, 0, 0]
    [1, 1, -1] [0, 0, 0] (fun _ => [])
    ⟨[1, 1, -1], [1, 0], [3, 0],
      [⟨[0, 0, 0], [0], [], [1], []⟩, ⟨[1, 1, -1], [], [], [1, 0], [3, 0]⟩], 0, 1⟩
    (by simp) (by simp) (by simp) ?_
  norm_num [learn_perceptron, loop, epochBody, update_weights, updateNeg, updatePos,
    eval_perceptron, evalNeg, evalPos, npDot, dotList, npSub, npAdd, npNormSq, augment,
    Bind.bind, Except.bind]

/-- C10: if a feasible vector is supplied but the first checkpoint's
input contains `'q'`, the run returns with the distance history still
empty (the initial distance is recorded only after the first continue
decision) while the error history has exactly one entry. -/
theorem quit_first_checkpoint_empty_distance
    (fuel : ℕ) (negRaw posRaw : List (List ℚ)) (wInit wGenFeas randW : List ℚ)
    (keys : ℕ → List Char) (r : LoopState)
    (hgf : wGenFeas ≠ []) (hq : 'q' ∈ keys 0)
    (h : learn_perceptron fuel negRaw posRaw wInit wGenFeas randW keys =
      .ok (some r)) :
    r.wDistHistory = [] ∧ r.numErrHistory.length = 1 := by
  rw [learn_perceptron_eq] at h
  cases hev : eval_perceptron (augment negRaw) (augment posRaw)
      (if wInit.isEmpty then randW else wInit) with
  | error e =>
      cases e
      rw [hev, exceptBind_error] at h
      cases h
  | ok mm =>
      rw [hev, exceptBind_ok, if_pos hq] at h
      injection h with h
      injection h with h
      subst h
      simp

/-- Witness for C10: the concrete quit-at-first-checkpoint run with
feasible vector `(1,1,-1)` has no distance entry and one error entry. -/
theorem quit_first_checkpoint_empty_distance_witness :
    ([] : List ℚ) = [] ∧ ([1] : List ℕ).length = 1 := by
  refine quit_first_checkpoint_empty_distance 2 [[-1, -1]] [[1, 1]] [0, 0, 0]
    [1, 1, -1] [0, 0, 0] (fun _ => ['q'])
    ⟨[0, 0, 0], [1], [], [⟨[0, 0, 0], [0], [], [1], []⟩], 1, 0⟩
    (by simp) (by simp) ?_
  norm_num [learn_perceptron, loop, epochBody, update_weights, updateNeg, updatePos,
    eval_perceptron, evalNeg, evalPos, npDot, dotList, npSub, npAdd, npNormSq, augment,
    Bind.bind, Except.bind]

end Perceptron
